import Mathlib

/-!
# Verification of the binary-VDF codec, shortcut extractor, and shortcut identity

A shallow embedding of the binary VDF ("Valve Data Format") codec
(`src/bvdf.rs`), the tolerant byte-level shortcut extractor
(`src/shortcut.rs`), and the shortcut identity derivations
(`Shortcut::new`, `Shortcut::steam_id`), together with proofs of the
specification's claims about them.

Bytes are modelled as natural numbers (`Bytes := List Nat`); real buffers
hold values below 256, but none of the definitions need that bound.
Fallible Rust code returning `Result`/`Option` is modelled with explicit
result types; the two places where the Rust source can panic (the slice
index `bytes[..4]` in `decode_int`, and the `CString::new(..).expect(..)`
in `decode_str`) are modelled by an explicit `panic` result value.
-/

namespace Bvdf

/-- A byte buffer. Each element is one byte. -/
abbrev Bytes := List Nat

/-- `DecodeError` from `src/bvdf.rs`: the two structured decoder errors. -/
inductive DecodeError where
  | unexpectedEndOfInput
  | invalidMapItemPrefix
deriving DecidableEq, Repr

/-- Result of running a fallible, possibly-panicking Rust function:
`ok` and `err` model `Result`, while `panic` models a Rust panic
(an out-of-bounds slice index or a failed `expect`). -/
inductive DResult (α : Type) where
  | ok (a : α)
  | err (e : DecodeError)
  | panic

/-- The decoded value tree: `Val` from `src/bvdf.rs`.
`map` is `IndexMap<CString, Val>` modelled as an insertion-ordered
association list; `str` is a `CString` modelled as its NUL-free byte
content; `int` is a `u32` modelled as a `Nat` below `2^32`. -/
inductive Val where
  | map (entries : List (Bytes × Val))
  | str (s : Bytes)
  | int (n : Nat)

/-- A decoded map: ordered key/value entries (the `Map` type alias). -/
abbrev EntryList := List (Bytes × Val)

/-- `IndexMap::insert`: if the key is already present, replace its value in
place (position unchanged); otherwise append the new entry at the end. -/
def mapInsert (m : EntryList) (k : Bytes) (v : Val) : EntryList :=
  if m.any (fun e => e.1 == k) then
    m.map (fun e => if e.1 == k then (e.1, v) else e)
  else m ++ [(k, v)]

/-- Folding `mapInsert` over a list of entries, in order: the net effect of
the decoder's sequence of inserts. -/
def insertAll (m : EntryList) (es : EntryList) : EntryList :=
  es.foldl (fun acc e => mapInsert acc e.1 e.2) m

/-- The scanning loop of `decode_str`: walk the buffer collecting bytes
until the first NUL; fail with `UnexpectedEndOfInput` if the buffer ends
first. Returns the collected run and the bytes after the terminator. -/
def decodeStrGo : Bytes → DResult (Bytes × Bytes)
  | [] => .err .unexpectedEndOfInput
  | b :: rest =>
    if b = 0 then .ok ([], rest)
    else
      match decodeStrGo rest with
      | .ok (s, r) => .ok (b :: s, r)
      | .err e => .err e
      | .panic => .panic

/-- `decode_str` from `src/bvdf.rs`: scan to the first NUL, then build a
`CString` from the scanned run.  `CString::new(..).expect("unreachable")`
panics exactly when the run contains a NUL byte, so that check is modelled
explicitly. -/
def decodeStr (bytes : Bytes) : DResult (Bytes × Bytes) :=
  match decodeStrGo bytes with
  | .ok (s, r) => if 0 ∈ s then .panic else .ok (s, r)
  | .err e => .err e
  | .panic => .panic

/-- Value of a 4-byte little-endian run. -/
def leVal (b0 b1 b2 b3 : Nat) : Nat :=
  b0 + 256 * b1 + 65536 * b2 + 16777216 * b3

/-- `u32::to_le_bytes`: the 4-byte little-endian encoding of `n`. -/
def toLE4 (n : Nat) : Bytes :=
  [n % 256, n / 256 % 256, n / 65536 % 256, n / 16777216 % 256]

/-- `decode_int` from `src/bvdf.rs`.  The Rust source slices `bytes[..4]`,
which panics when fewer than 4 bytes remain (the subsequent
`try_into().map_err(..)` can then never fail, so its error path is dead);
with at least 4 bytes it reads them little-endian and advances past them. -/
def decodeInt (bytes : Bytes) : DResult (Nat × Bytes) :=
  match bytes with
  | b0 :: b1 :: b2 :: b3 :: rest => .ok (leVal b0 b1 b2 b3, rest)
  | _ => .panic

/-- Sequencing of fallible steps: Rust's `?` operator. An error or panic in
the first step short-circuits; otherwise its value feeds the continuation. -/
def dbind {α β : Type} : DResult α → (α → DResult β) → DResult β
  | .ok a, k => k a
  | .err e, _ => .err e
  | .panic, _ => .panic

/-- The loop of `decode_map` from `src/bvdf.rs`, with an explicit fuel
argument for termination (the wrappers always supply at least the buffer
length plus one, which is enough: every iteration and every recursion
consumes at least one byte).  `acc` is the map built so far.  At each step:
an exhausted buffer ends the map (returning the entries so far), tag `0x00`
decodes a key and a nested map, `0x01` a key and a string, `0x02` a key and
a 4-byte integer, `0x08` ends the map, and any other tag fails with
`InvalidMapItemPrefix`. -/
def decodeEntriesF : Nat → EntryList → Bytes → DResult (EntryList × Bytes)
  | _, acc, [] => .ok (acc, [])
  | 0, _, _ => .err .unexpectedEndOfInput
  | f + 1, acc, next :: rest =>
    if next = 0 then
      dbind (decodeStr rest) fun kr =>
      dbind (decodeEntriesF f [] kr.2) fun vr =>
      decodeEntriesF f (mapInsert acc kr.1 (.map vr.1)) vr.2
    else if next = 1 then
      dbind (decodeStr rest) fun kr =>
      dbind (decodeStr kr.2) fun vr =>
      decodeEntriesF f (mapInsert acc kr.1 (.str vr.1)) vr.2
    else if next = 2 then
      dbind (decodeStr rest) fun kr =>
      dbind (decodeInt kr.2) fun vr =>
      decodeEntriesF f (mapInsert acc kr.1 (.int vr.1)) vr.2
    else if next = 8 then .ok (acc, rest)
    else .err .invalidMapItemPrefix

/-- `decode_map` on a buffer, starting from a given accumulated map. -/
def decodeMapP (acc : EntryList) (bytes : Bytes) : DResult (EntryList × Bytes) :=
  decodeEntriesF (bytes.length + 1) acc bytes

/-- `decode` from `src/bvdf.rs`: run `decode_map` at the top level and
return the resulting map (any bytes remaining after a top-level end-of-map
sentinel are ignored, as in the source). -/
def decode (bytes : Bytes) : DResult EntryList :=
  match decodeMapP [] bytes with
  | .ok (m, _) => .ok m
  | .err e => .err e
  | .panic => .panic

/-- The tag byte `encode` writes for each kind of value. -/
def tagOf : Val → Nat
  | .map _ => 0
  | .str _ => 1
  | .int _ => 2

mutual

/-- The value payload written by `encode` in `src/bvdf.rs`: a nested map is
recursively encoded (with its own trailing `0x08`), a string is written with
a NUL terminator, an integer as 4 little-endian bytes. -/
def encodeVal : Val → Bytes
  | .map es => encodeEntries es ++ [8]
  | .str s => s ++ [0]
  | .int n => toLE4 n

/-- The entry loop of `encode`: for each entry, the tag byte for the value's
kind, the key with a NUL terminator, then the value payload. -/
def encodeEntries : EntryList → Bytes
  | [] => []
  | (k, v) :: tl => tagOf v :: (k ++ [0]) ++ encodeVal v ++ encodeEntries tl

end

/-- `encode` from `src/bvdf.rs`: all entries in order, then the end-of-map
sentinel `0x08` (also at the document root). -/
def encode (es : EntryList) : Bytes :=
  encodeEntries es ++ [8]

mutual

/-- Well-formedness of a value, mirroring the Rust types' invariants:
a `CString` payload has no NUL byte, a `u32` is below `2^32`, and a nested
map is itself well-formed. -/
def wfV : Val → Bool
  | .map es => wfE es
  | .str s => s.all (fun b => b != 0)
  | .int n => decide (n < 4294967296)

/-- Well-formedness of a map: every key is NUL-free, every value
well-formed, and keys are unique (the `IndexMap` invariant). -/
def wfE : EntryList → Bool
  | [] => true
  | (k, v) :: tl =>
    k.all (fun b => b != 0) && wfV v && tl.all (fun e => e.1 != k) && wfE tl

end

/-- A canonical encoding: a byte buffer produced by `encode` from some
well-formed document tree (entries in order, every map — including the
root — terminated by a trailing `0x08`, keys unique and NUL-free). -/
def Canonical (b : Bytes) : Prop :=
  ∃ es : EntryList, wfE es = true ∧ encode es = b

mutual

/-- The positions, within the payload `encodeVal v`, where the decoder
reads a tag byte: none for strings and integers; for a nested map, the
nested entries' tag positions and the nested end-of-map sentinel. -/
def tagPositionsV : Val → List Nat
  | .map m => tagPositions m ++ [(encodeEntries m).length]
  | .str _ => []
  | .int _ => []

/-- The positions, within `encodeEntries es`, where the decoder reads a
tag byte: each entry's leading tag byte, and the tag positions inside its
payload. -/
def tagPositions : EntryList → List Nat
  | [] => []
  | (k, v) :: tl =>
    0 :: ((tagPositionsV v).map (fun p => k.length + 2 + p)
      ++ (tagPositions tl).map (fun p => k.length + 2 + (encodeVal v).length + p))

end

end Bvdf

namespace Shortcuts

open Bvdf (Bytes toLE4 leVal)

/-- A shortcut record (`Shortcut` in `src/shortcut.rs`), with its string
fields kept as raw bytes. -/
structure Shortcut where
  appid : Nat
  appName : Bytes
  executable : Bytes
  startDir : Bytes
deriving DecidableEq, Repr

/-- `u8::to_ascii_lowercase`: map an ASCII uppercase letter to lowercase,
leave every other byte unchanged. -/
def lowerA (b : Nat) : Nat :=
  if 65 ≤ b ∧ b ≤ 90 then b + 32 else b

/-- `u8::eq_ignore_ascii_case`: equality after ASCII lowercasing. -/
def eqIC (a b : Nat) : Bool :=
  lowerA a == lowerA b

/-- Pointwise `eq_ignore_ascii_case` of two byte strings of equal length. -/
def eqICL : Bytes → Bytes → Bool
  | [], [] => true
  | a :: as2, b :: bs => eqIC a b && eqICL as2 bs
  | _, _ => false

/-- The inner loop of `after_many_case_insensitive`: after the needle's
first byte matched, try to match its remaining bytes by peeking; each
matching byte is consumed, and the first mismatching byte is left
unconsumed.  Returns whether the whole needle matched, and the input
remaining. -/
def tryMatch : Bytes → Bytes → Bool × Bytes
  | [], bs => (true, bs)
  | _ :: _, [] => (false, [])
  | n :: ns, b :: bs => if eqIC n b then tryMatch ns bs else (false, b :: bs)

/-- `after_many_case_insensitive` from `src/shortcut.rs`, with fuel (any
fuel at least the input length gives the Rust behaviour: the scanning loop
consumes at least one byte per iteration).  Advances through the input
until right after the first case-insensitive match of `needle`; partial
matches consume the bytes they matched.  Returns the input remaining after
the needle, or `none` if the input is exhausted first. -/
def afterManyF : Nat → Bytes → Bytes → Option Bytes
  | 0, _, _ => none
  | f + 1, bytes, needle =>
    match bytes with
    | [] => none
    | b :: bs =>
      match needle with
      | [] => afterManyF f bs needle
      | n :: ns =>
        if eqIC n b then
          match tryMatch ns bs with
          | (true, rest) => some rest
          | (false, rest) => afterManyF f rest needle
        else afterManyF f bs needle

/-- `after_many_case_insensitive` on a buffer. -/
def afterMany (bytes needle : Bytes) : Option Bytes :=
  afterManyF bytes.length bytes needle

/-- `parse_value_str` from `src/shortcut.rs`: collect bytes up to the next
NUL; `none` if the input ends first. -/
def parseValueStr : Bytes → Option (Bytes × Bytes)
  | [] => none
  | b :: bs =>
    if b = 0 then some ([], bs)
    else (parseValueStr bs).map (fun sr => (b :: sr.1, sr.2))

/-- `parse_value_u32` from `src/shortcut.rs`: read 4 bytes little-endian;
`none` if fewer remain. -/
def parseValueU32 : Bytes → Option (Nat × Bytes)
  | b0 :: b1 :: b2 :: b3 :: rest => some (leVal b0 b1 b2 b3, rest)
  | _ => none

/-- The needle `b"\x02appid\x00"`. -/
def needleAppid : Bytes := [2, 97, 112, 112, 105, 100, 0]

/-- The needle `b"\x01AppName\x00"`. -/
def needleAppName : Bytes := [1, 65, 112, 112, 78, 97, 109, 101, 0]

/-- The needle `b"\x01Exe\x00"`. -/
def needleExe : Bytes := [1, 69, 120, 101, 0]

/-- The needle `b"\x01StartDir\x00"`. -/
def needleStartDir : Bytes := [1, 83, 116, 97, 114, 116, 68, 105, 114, 0]

/-- The loop of `parse_shortcuts` from `src/shortcut.rs`, with fuel (the
wrapper supplies the input length plus one, which is enough: every
iteration consumes at least the appid needle).  Scan for the appid marker —
if absent, return the records collected so far; then read the 4-byte id and
scan for the AppName, Exe and StartDir markers with their NUL-terminated
values — if any of these is missing, return `none`, abandoning everything;
otherwise push the record and continue. -/
def parseShortcutsF : Nat → Bytes → List Shortcut → Option (List Shortcut)
  | 0, _, _ => none
  | f + 1, bytes, acc =>
    match afterMany bytes needleAppid with
    | none => some acc
    | some r1 =>
      match parseValueU32 r1 with
      | none => none
      | some nr =>
        match afterMany nr.2 needleAppName with
        | none => none
        | some r3 =>
          match parseValueStr r3 with
          | none => none
          | some an =>
            match afterMany an.2 needleExe with
            | none => none
            | some r5 =>
              match parseValueStr r5 with
              | none => none
              | some ex =>
                match afterMany ex.2 needleStartDir with
                | none => none
                | some r7 =>
                  match parseValueStr r7 with
                  | none => none
                  | some sd =>
                    parseShortcutsF f sd.2 (acc ++ [⟨nr.1, an.1, ex.1, sd.1⟩])

/-- `parse_shortcuts` from `src/shortcut.rs`. -/
def parseShortcuts (bytes : Bytes) : Option (List Shortcut) :=
  parseShortcutsF (bytes.length + 1) bytes []

/-- The canonical spelling of the `appid` key. -/
def keyAppid : Bytes := [97, 112, 112, 105, 100]

/-- The canonical spelling of the `AppName` key. -/
def keyAppName : Bytes := [65, 112, 112, 78, 97, 109, 101]

/-- The canonical spelling of the `Exe` key. -/
def keyExe : Bytes := [69, 120, 101]

/-- The canonical spelling of the `StartDir` key. -/
def keyStartDir : Bytes := [83, 116, 97, 114, 116, 68, 105, 114]

/-- One shortcut record laid out on the wire, with the four key names
spelled `K1 K2 K3 K4`: the tagged, NUL-terminated appid key and 4-byte id,
then the three tagged, NUL-terminated string fields. -/
def mkRecord (K1 K2 K3 K4 : Bytes) (s : Shortcut) : Bytes :=
  (2 :: (K1 ++ [0])) ++ toLE4 s.appid
    ++ (1 :: (K2 ++ [0])) ++ s.appName ++ [0]
    ++ (1 :: (K3 ++ [0])) ++ s.executable ++ [0]
    ++ (1 :: (K4 ++ [0])) ++ s.startDir ++ [0]

/-- A buffer holding the given records back to back. -/
def mkBuffer (K1 K2 K3 K4 : Bytes) : List Shortcut → Bytes
  | [] => []
  | s :: tl => mkRecord K1 K2 K3 K4 s ++ mkBuffer K1 K2 K3 K4 tl

/-- Field sanity for a record placed on the wire: the id fits in 32 bits
and the string fields are NUL-free. -/
def shortcutOK (s : Shortcut) : Bool :=
  decide (s.appid < 4294967296) && s.appName.all (fun b => b != 0)
    && s.executable.all (fun b => b != 0) && s.startDir.all (fun b => b != 0)

/-- The four key spellings differ from the canonical ones only in ASCII
letter case. -/
def spellingsOK (K1 K2 K3 K4 : Bytes) : Bool :=
  eqICL keyAppid K1 && eqICL keyAppName K2 && eqICL keyExe K3 && eqICL keyStartDir K4

/-- One bit of the reflected CRC-32 division: shift right, folding in the
reflected ISO-HDLC polynomial when the low bit was set. -/
def crc32Round (c : Nat) : Nat :=
  if c % 2 = 1 then (c / 2) ^^^ 0xEDB88320 else c / 2

/-- Fold one input byte into the running CRC state. -/
def crc32Byte (c b : Nat) : Nat := crc32Round^[8] (c ^^^ b)

/-- `Digest::update`: fold a byte string into the running CRC state. -/
def crcUpdate (c : Nat) (bs : Bytes) : Nat := bs.foldl crc32Byte c

/-- The CRC-32/ISO-HDLC checksum of a byte string: one update from the
initial state, then the final xor. -/
def crc32 (bs : Bytes) : Nat := crcUpdate 0xFFFFFFFF bs ^^^ 0xFFFFFFFF

/-- The id derivation in `Shortcut::new` from `src/shortcut.rs`: one
digest updated with the executable's bytes and then the app name's bytes,
finalized, then `| 0x80000000`. -/
def deriveAppId (executable appName : Bytes) : Nat :=
  (crcUpdate (crcUpdate 0xFFFFFFFF executable) appName ^^^ 0xFFFFFFFF) ||| 0x80000000

/-- `Shortcut::steam_id` from `src/shortcut.rs`:
`((appid as u64) << 32) | 0x02000000`. -/
def steamLongId (appid : Nat) : Nat :=
  (appid <<< 32) ||| 0x02000000

end Shortcuts

namespace Bvdf

theorem dbind_eq_ok {α β : Type} {x : DResult α} {k : α → DResult β} {y : β} :
    dbind x k = .ok y ↔ ∃ a, x = .ok a ∧ k a = .ok y := by
  cases x <;> simp [dbind]

theorem dbind_ok {α β : Type} (a : α) (k : α → DResult β) :
    dbind (.ok a) k = k a := rfl

theorem dbind_err {α β : Type} (e : DecodeError) (k : α → DResult β) :
    dbind (.err e) k = .err e := rfl

theorem decodeStrGo_not_mem :
    ∀ (bytes s r : Bytes), decodeStrGo bytes = .ok (s, r) → 0 ∉ s := by
  intro bytes
  induction bytes with
  | nil => intro s r h; simp [decodeStrGo] at h
  | cons b rest ih =>
    intro s r h
    by_cases hb : b = 0
    · subst hb
      simp [decodeStrGo] at h
      rcases h with ⟨hs, hr⟩
      subst hs
      simp
    · simp only [decodeStrGo, if_neg hb] at h
      cases hgo : decodeStrGo rest with
      | ok sr =>
        obtain ⟨s0, r0⟩ := sr
        rw [hgo] at h
        simp at h
        obtain ⟨hs, hr⟩ := h
        rw [← hs]
        intro hmem
        rcases List.mem_cons.mp hmem with h0 | h0
        · exact hb h0.symm
        · exact ih s0 r0 hgo h0
      | err e => rw [hgo] at h; simp at h
      | panic => rw [hgo] at h; simp at h

theorem decodeStrGo_append :
    ∀ (s r : Bytes), 0 ∉ s → decodeStrGo (s ++ 0 :: r) = .ok (s, r) := by
  intro s
  induction s with
  | nil => intro r _; simp [decodeStrGo]
  | cons b tl ih =>
    intro r hmem
    have hb : b ≠ 0 := fun h => hmem (by simp [h])
    have htl : 0 ∉ tl := fun h => hmem (List.mem_cons_of_mem _ h)
    simp only [List.cons_append, List.append_eq, decodeStrGo, if_neg hb, ih r htl]

theorem decodeStrGo_length :
    ∀ (bytes s r : Bytes), decodeStrGo bytes = .ok (s, r) → r.length < bytes.length := by
  intro bytes
  induction bytes with
  | nil => intro s r h; simp [decodeStrGo] at h
  | cons b rest ih =>
    intro s r h
    by_cases hb : b = 0
    · subst hb
      simp [decodeStrGo] at h
      simp [← h.2]
    · simp only [decodeStrGo, if_neg hb] at h
      cases hgo : decodeStrGo rest with
      | ok sr =>
        obtain ⟨s0, r0⟩ := sr
        rw [hgo] at h
        simp at h
        have := ih s0 r0 hgo
        simp [← h.2]
        omega
      | err e => rw [hgo] at h; simp at h
      | panic => rw [hgo] at h; simp at h

theorem decodeStr_of_go {bytes s r : Bytes} (h : decodeStrGo bytes = .ok (s, r)) :
    decodeStr bytes = .ok (s, r) := by
  unfold decodeStr
  rw [h]
  simp [decodeStrGo_not_mem bytes s r h]

theorem decodeStr_append (s r : Bytes) (h : 0 ∉ s) :
    decodeStr (s ++ 0 :: r) = .ok (s, r) :=
  decodeStr_of_go (decodeStrGo_append s r h)

theorem decodeStr_eq_ok {bytes s r : Bytes} (h : decodeStr bytes = .ok (s, r)) :
    decodeStrGo bytes = .ok (s, r) := by
  unfold decodeStr at h
  cases hgo : decodeStrGo bytes with
  | ok sr =>
    rw [hgo] at h
    obtain ⟨s0, r0⟩ := sr
    by_cases hm : 0 ∈ s0 <;> simp [hm] at h
    rw [← h.1, ← h.2]
  | err e => rw [hgo] at h; simp at h
  | panic => rw [hgo] at h; simp at h

theorem decodeStr_length {bytes s r : Bytes} (h : decodeStr bytes = .ok (s, r)) :
    r.length < bytes.length :=
  decodeStrGo_length bytes s r (decodeStr_eq_ok h)

theorem decodeStrGo_ne_panic : ∀ bytes : Bytes, decodeStrGo bytes ≠ .panic := by
  intro bytes
  induction bytes with
  | nil => simp [decodeStrGo]
  | cons b rest ih =>
    by_cases hb : b = 0
    · subst hb; simp [decodeStrGo]
    · simp only [decodeStrGo, if_neg hb]
      cases hgo : decodeStrGo rest with
      | ok sr => obtain ⟨s0, r0⟩ := sr; simp
      | err e => simp
      | panic => exact absurd hgo ih

theorem decodeStr_ne_panic : ∀ bytes : Bytes, decodeStr bytes ≠ .panic := by
  intro bytes h
  unfold decodeStr at h
  cases hgo : decodeStrGo bytes with
  | ok sr =>
    obtain ⟨s0, r0⟩ := sr
    rw [hgo] at h
    by_cases hm : 0 ∈ s0
    · exact decodeStrGo_not_mem bytes s0 r0 hgo hm
    · simp [hm] at h
  | err e => rw [hgo] at h; simp at h
  | panic => exact decodeStrGo_ne_panic bytes hgo

theorem decodeInt_toLE4 (n : Nat) (r : Bytes) (h : n < 4294967296) :
    decodeInt (toLE4 n ++ r) = .ok (n, r) := by
  simp [toLE4, decodeInt, leVal]
  omega

theorem decodeInt_length {bytes r : Bytes} {x : Nat} (h : decodeInt bytes = .ok (x, r)) :
    r.length < bytes.length := by
  match bytes with
  | [] => simp [decodeInt] at h
  | [b0] => simp [decodeInt] at h
  | [b0, b1] => simp [decodeInt] at h
  | [b0, b1, b2] => simp [decodeInt] at h
  | b0 :: b1 :: b2 :: b3 :: rest =>
    simp [decodeInt] at h
    simp [← h.2]
    omega

theorem decodeEntriesF_length :
    ∀ (f : Nat) (acc : EntryList) (b : Bytes) (m : EntryList) (r : Bytes),
      decodeEntriesF f acc b = .ok (m, r) → r.length ≤ b.length := by
  intro f
  induction f with
  | zero =>
    intro acc b m r h
    cases b with
    | nil => simp [decodeEntriesF] at h; simp [← h.2]
    | cons next rest => simp [decodeEntriesF] at h
  | succ f ih =>
    intro acc b m r h
    cases b with
    | nil => simp [decodeEntriesF] at h; simp [← h.2]
    | cons next rest =>
      simp only [decodeEntriesF] at h
      by_cases h0 : next = 0
      · rw [if_pos h0] at h
        rcases dbind_eq_ok.mp h with ⟨⟨key, r1⟩, hs, h⟩
        rcases dbind_eq_ok.mp h with ⟨⟨v, r2⟩, hm, h⟩
        have l1 := decodeStr_length hs
        have l2 := ih _ _ _ _ hm
        have l3 := ih _ _ _ _ h
        simp at l2 l3 ⊢
        omega
      · rw [if_neg h0] at h
        by_cases h1 : next = 1
        · rw [if_pos h1] at h
          rcases dbind_eq_ok.mp h with ⟨⟨key, r1⟩, hs, h⟩
          rcases dbind_eq_ok.mp h with ⟨⟨v, r2⟩, hv, h⟩
          have l1 := decodeStr_length hs
          have l2 := decodeStr_length hv
          have l3 := ih _ _ _ _ h
          simp at l2 l3 ⊢
          omega
        · rw [if_neg h1] at h
          by_cases h2 : next = 2
          · rw [if_pos h2] at h
            rcases dbind_eq_ok.mp h with ⟨⟨key, r1⟩, hs, h⟩
            rcases dbind_eq_ok.mp h with ⟨⟨v, r2⟩, hv, h⟩
            have l1 := decodeStr_length hs
            have l2 := decodeInt_length hv
            have l3 := ih _ _ _ _ h
            simp at l2 l3 ⊢
            omega
          · rw [if_neg h2] at h
            by_cases h8 : next = 8
            · rw [if_pos h8] at h
              simp at h
              simp [← h.2]
            · rw [if_neg h8] at h
              simp at h

theorem decodeEntriesF_congr : ∀ (f : Nat) (acc : EntryList) (b : Bytes),
    b.length < f → decodeEntriesF f acc b = decodeEntriesF (b.length + 1) acc b
  | f, acc, [], _ => by
    cases f with
    | zero => simp [decodeEntriesF]
    | succ f => simp [decodeEntriesF]
  | 0, acc, next :: rest, hf => absurd hf (by simp)
  | f + 1, acc, next :: rest, hf => by
    have hf' : rest.length < f := by simp at hf; omega
    simp only [decodeEntriesF, List.length_cons]
    by_cases h0 : next = 0
    · simp only [if_pos h0]
      cases hs : decodeStr rest with
      | ok kr =>
        obtain ⟨key, r1⟩ := kr
        simp only [dbind]
        have hl1 : r1.length < rest.length := decodeStr_length hs
        rw [decodeEntriesF_congr f [] r1 (by omega),
            decodeEntriesF_congr (rest.length + 1) [] r1 (by omega)]
        cases hm : decodeEntriesF (r1.length + 1) [] r1 with
        | ok vr =>
          obtain ⟨v, r2⟩ := vr
          simp only [dbind]
          have hl2 : r2.length ≤ r1.length := decodeEntriesF_length _ _ _ _ _ hm
          rw [decodeEntriesF_congr f (mapInsert acc key (.map v)) r2 (by omega),
              decodeEntriesF_congr (rest.length + 1) (mapInsert acc key (.map v)) r2 (by omega)]
        | err e => simp [dbind]
        | panic => simp [dbind]
      | err e => simp [dbind]
      | panic => simp [dbind]
    · simp only [if_neg h0]
      by_cases h1 : next = 1
      · simp only [if_pos h1]
        cases hs : decodeStr rest with
        | ok kr =>
          obtain ⟨key, r1⟩ := kr
          simp only [dbind]
          have hl1 : r1.length < rest.length := decodeStr_length hs
          cases hv : decodeStr r1 with
          | ok vr =>
            obtain ⟨v, r2⟩ := vr
            simp only [dbind]
            have hl2 : r2.length < r1.length := decodeStr_length hv
            rw [decodeEntriesF_congr f (mapInsert acc key (.str v)) r2 (by omega),
                decodeEntriesF_congr (rest.length + 1) (mapInsert acc key (.str v)) r2 (by omega)]
          | err e => simp [dbind]
          | panic => simp [dbind]
        | err e => simp [dbind]
        | panic => simp [dbind]
      · simp only [if_neg h1]
        by_cases h2 : next = 2
        · simp only [if_pos h2]
          cases hs : decodeStr rest with
          | ok kr =>
            obtain ⟨key, r1⟩ := kr
            simp only [dbind]
            have hl1 : r1.length < rest.length := decodeStr_length hs
            cases hv : decodeInt r1 with
            | ok vr =>
              obtain ⟨v, r2⟩ := vr
              simp only [dbind]
              have hl2 : r2.length < r1.length := decodeInt_length hv
              rw [decodeEntriesF_congr f (mapInsert acc key (.int v)) r2 (by omega),
                  decodeEntriesF_congr (rest.length + 1) (mapInsert acc key (.int v)) r2 (by omega)]
            | err e => simp [dbind]
            | panic => simp [dbind]
          | err e => simp [dbind]
          | panic => simp [dbind]
        · simp only [if_neg h2]
termination_by f acc b hf => b.length
decreasing_by all_goals (simp; omega)

theorem decodeMapP_def (acc : EntryList) (b : Bytes) :
    decodeEntriesF (b.length + 1) acc b = decodeMapP acc b := rfl

theorem decodeMapP_nil (acc : EntryList) : decodeMapP acc [] = .ok (acc, []) := rfl

theorem decodeMapP_end (acc : EntryList) (rest : Bytes) :
    decodeMapP acc (8 :: rest) = .ok (acc, rest) := rfl

theorem decodeMapP_bad (acc : EntryList) (next : Nat) (rest : Bytes)
    (h0 : next ≠ 0) (h1 : next ≠ 1) (h2 : next ≠ 2) (h8 : next ≠ 8) :
    decodeMapP acc (next :: rest) = .err .invalidMapItemPrefix := by
  simp [decodeMapP, decodeEntriesF, h0, h1, h2, h8]

theorem decodeMapP_tag0_unfold (acc : EntryList) (rest : Bytes) :
    decodeMapP acc (0 :: rest) =
      dbind (decodeStr rest) fun kr =>
      dbind (decodeEntriesF (rest.length + 1) [] kr.2) fun vr =>
      decodeEntriesF (rest.length + 1) (mapInsert acc kr.1 (.map vr.1)) vr.2 := rfl

theorem decodeMapP_tag1_unfold (acc : EntryList) (rest : Bytes) :
    decodeMapP acc (1 :: rest) =
      dbind (decodeStr rest) fun kr =>
      dbind (decodeStr kr.2) fun vr =>
      decodeEntriesF (rest.length + 1) (mapInsert acc kr.1 (.str vr.1)) vr.2 := rfl

theorem decodeMapP_tag2_unfold (acc : EntryList) (rest : Bytes) :
    decodeMapP acc (2 :: rest) =
      dbind (decodeStr rest) fun kr =>
      dbind (decodeInt kr.2) fun vr =>
      decodeEntriesF (rest.length + 1) (mapInsert acc kr.1 (.int vr.1)) vr.2 := rfl

theorem decodeMapP_tag0 {rest key r1 : Bytes} {v : EntryList} {r2 : Bytes}
    (acc : EntryList) (hs : decodeStr rest = .ok (key, r1))
    (hm : decodeMapP [] r1 = .ok (v, r2)) :
    decodeMapP acc (0 :: rest) = decodeMapP (mapInsert acc key (.map v)) r2 := by
  have hl1 : r1.length < rest.length := decodeStr_length hs
  have hl2 : r2.length ≤ r1.length := decodeEntriesF_length _ _ _ _ _ hm
  rw [decodeMapP_tag0_unfold, hs]
  simp only [dbind]
  rw [decodeEntriesF_congr (rest.length + 1) [] r1 (by omega), decodeMapP_def, hm]
  simp only [dbind]
  rw [decodeEntriesF_congr (rest.length + 1) _ r2 (by omega), decodeMapP_def]

theorem decodeMapP_tag0_err {rest key r1 : Bytes} {e : DecodeError}
    (acc : EntryList) (hs : decodeStr rest = .ok (key, r1))
    (hm : decodeMapP [] r1 = .err e) :
    decodeMapP acc (0 :: rest) = .err e := by
  have hl1 : r1.length < rest.length := decodeStr_length hs
  rw [decodeMapP_tag0_unfold, hs]
  simp only [dbind]
  rw [decodeEntriesF_congr (rest.length + 1) [] r1 (by omega), decodeMapP_def, hm]

theorem decodeMapP_tag1 {rest key r1 s r2 : Bytes} (acc : EntryList)
    (hs : decodeStr rest = .ok (key, r1)) (hv : decodeStr r1 = .ok (s, r2)) :
    decodeMapP acc (1 :: rest) = decodeMapP (mapInsert acc key (.str s)) r2 := by
  have hl1 : r1.length < rest.length := decodeStr_length hs
  have hl2 : r2.length < r1.length := decodeStr_length hv
  rw [decodeMapP_tag1_unfold, hs]
  simp only [dbind]
  rw [hv]
  simp only [dbind]
  rw [decodeEntriesF_congr (rest.length + 1) _ r2 (by omega), decodeMapP_def]

theorem decodeMapP_tag2 {rest key r1 r2 : Bytes} {n : Nat} (acc : EntryList)
    (hs : decodeStr rest = .ok (key, r1)) (hv : decodeInt r1 = .ok (n, r2)) :
    decodeMapP acc (2 :: rest) = decodeMapP (mapInsert acc key (.int n)) r2 := by
  have hl1 : r1.length < rest.length := decodeStr_length hs
  have hl2 : r2.length < r1.length := decodeInt_length hv
  rw [decodeMapP_tag2_unfold, hs]
  simp only [dbind]
  rw [hv]
  simp only [dbind]
  rw [decodeEntriesF_congr (rest.length + 1) _ r2 (by omega), decodeMapP_def]

theorem mapInsert_append {acc : EntryList} {k : Bytes} (v : Val)
    (h : ∀ a ∈ acc, a.1 ≠ k) : mapInsert acc k v = acc ++ [(k, v)] := by
  have hcond : ¬(acc.any (fun e => e.1 == k) = true) := by
    simp only [List.any_eq_true, beq_iff_eq, not_exists]
    intro a
    exact fun hmem => h a hmem.1 hmem.2
  simp [mapInsert, hcond]

theorem insertAll_cons (acc : EntryList) (k : Bytes) (v : Val) (tl : EntryList) :
    insertAll acc ((k, v) :: tl) = insertAll (mapInsert acc k v) tl := rfl

theorem wfE_parts {k : Bytes} {v : Val} {tl : EntryList}
    (h : wfE ((k, v) :: tl) = true) :
    (∀ b ∈ k, b ≠ 0) ∧ wfV v = true ∧ (∀ e ∈ tl, e.1 ≠ k) ∧ wfE tl = true := by
  simp only [wfE, Bool.and_eq_true, List.all_eq_true, bne_iff_ne] at h
  exact ⟨h.1.1.1, h.1.1.2, h.1.2, h.2⟩

theorem insertAll_eq_append :
    ∀ (es acc : EntryList), wfE es = true → (∀ e ∈ es, ∀ a ∈ acc, a.1 ≠ e.1) →
      insertAll acc es = acc ++ es := by
  intro es
  induction es with
  | nil => intro acc _ _; simp [insertAll]
  | cons hd tl ih =>
    intro acc hwf hdisj
    obtain ⟨k, v⟩ := hd
    obtain ⟨_, _, hnd, htl⟩ := wfE_parts hwf
    rw [insertAll_cons, mapInsert_append v (fun a ha => hdisj (k, v) (by simp) a ha)]
    rw [ih (acc ++ [(k, v)]) htl]
    · simp
    · intro e he a ha
      rcases List.mem_append.mp ha with hin | hin
      · exact hdisj e (List.mem_cons_of_mem _ he) a hin
      · have : a = (k, v) := by simpa using hin
        rw [this]
        exact fun hk => (hnd e he) hk.symm

theorem insertAll_nil_eq (es : EntryList) (h : wfE es = true) :
    insertAll [] es = es := by
  have := insertAll_eq_append es [] h (by simp)
  simpa using this

theorem decodeMapP_encode_entries :
    ∀ (es : EntryList) (acc : EntryList) (suffix : Bytes), wfE es = true →
      decodeMapP acc (encodeEntries es ++ suffix) = decodeMapP (insertAll acc es) suffix
  | [], acc, suffix, _ => by simp [encodeEntries, insertAll]
  | (k, Val.str s) :: tl, acc, suffix, hwf => by
    obtain ⟨hk, hv, _, htl⟩ := wfE_parts hwf
    have hk' : 0 ∉ k := fun hm => hk 0 hm rfl
    have hs' : 0 ∉ s := by
      simp only [wfV, List.all_eq_true, bne_iff_ne] at hv
      exact fun hm => hv 0 hm rfl
    have hb : encodeEntries ((k, Val.str s) :: tl) ++ suffix
        = 1 :: (k ++ 0 :: (s ++ 0 :: (encodeEntries tl ++ suffix))) := by
      simp [encodeEntries, encodeVal, tagOf]
    rw [hb, decodeMapP_tag1 acc (decodeStr_append k _ hk') (decodeStr_append s _ hs'),
        insertAll_cons]
    exact decodeMapP_encode_entries tl (mapInsert acc k (.str s)) suffix htl
  | (k, Val.int n) :: tl, acc, suffix, hwf => by
    obtain ⟨hk, hv, _, htl⟩ := wfE_parts hwf
    have hk' : 0 ∉ k := fun hm => hk 0 hm rfl
    have hn : n < 4294967296 := by simpa [wfV] using hv
    have hb : encodeEntries ((k, Val.int n) :: tl) ++ suffix
        = 2 :: (k ++ 0 :: (toLE4 n ++ (encodeEntries tl ++ suffix))) := by
      simp [encodeEntries, encodeVal, tagOf]
    rw [hb, decodeMapP_tag2 acc (decodeStr_append k _ hk') (decodeInt_toLE4 n _ hn),
        insertAll_cons]
    exact decodeMapP_encode_entries tl (mapInsert acc k (.int n)) suffix htl
  | (k, Val.map m) :: tl, acc, suffix, hwf => by
    obtain ⟨hk, hv, _, htl⟩ := wfE_parts hwf
    have hk' : 0 ∉ k := fun hm => hk 0 hm rfl
    have hm' : wfE m = true := by simpa [wfV] using hv
    have hb : encodeEntries ((k, Val.map m) :: tl) ++ suffix
        = 0 :: (k ++ 0 :: (encodeEntries m ++ (8 :: (encodeEntries tl ++ suffix)))) := by
      simp [encodeEntries, encodeVal, tagOf]
    have hinner : decodeMapP [] (encodeEntries m ++ (8 :: (encodeEntries tl ++ suffix)))
        = .ok (m, encodeEntries tl ++ suffix) := by
      rw [decodeMapP_encode_entries m [] (8 :: (encodeEntries tl ++ suffix)) hm',
          insertAll_nil_eq m hm', decodeMapP_end]
    rw [hb, decodeMapP_tag0 acc (decodeStr_append k _ hk') hinner, insertAll_cons]
    exact decodeMapP_encode_entries tl (mapInsert acc k (.map m)) suffix htl
termination_by es _ _ _ => sizeOf es
decreasing_by all_goals (simp; try omega)

theorem decode_encode_wf (es : EntryList) (h : wfE es = true) :
    decode (encode es) = .ok es := by
  have h1 : decodeMapP [] (encodeEntries es ++ [8]) = .ok (es, []) := by
    rw [show ([8] : Bytes) = 8 :: [] from rfl,
        decodeMapP_encode_entries es [] (8 :: []) h, insertAll_nil_eq es h,
        decodeMapP_end]
  simp [decode, encode, h1]

/-- C1: for every byte buffer `b` that is a canonical encoding, decoding
`b` succeeds and re-encoding the result reproduces `b` byte-for-byte:
`encode (decode b) = b`. -/
theorem spec_c1_canonical_roundtrip (b : Bytes) (h : Canonical b) :
    ∃ m : EntryList, decode b = .ok m ∧ encode m = b := by
  obtain ⟨es, hwf, henc⟩ := h
  refine ⟨es, ?_, henc⟩
  rw [← henc]
  exact decode_encode_wf es hwf

/-- Witness for C1 at the concrete canonical buffer `[2, 97, 0, 5, 0, 0, 0, 8]`
(the encoding of the single-entry document `{"a": int 5}`). -/
theorem spec_c1_canonical_roundtrip_witness :
    Canonical [2, 97, 0, 5, 0, 0, 0, 8] ∧
      ∃ m : EntryList, decode [2, 97, 0, 5, 0, 0, 0, 8] = .ok m ∧
        encode m = [2, 97, 0, 5, 0, 0, 0, 8] :=
  ⟨⟨[([97], .int 5)], rfl, rfl⟩,
   spec_c1_canonical_roundtrip _ ⟨[([97], .int 5)], rfl, rfl⟩⟩

/-- C9: for every well-formed in-memory document tree, the encoder's output
is decodable and decoding inverts encoding: `decode (encode m) = ok m`. -/
theorem spec_c9_decode_encode_id (es : EntryList) (h : wfE es = true) :
    decode (encode es) = .ok es :=
  decode_encode_wf es h

/-- Witness for C9 at a concrete two-entry tree with a nested map. -/
theorem spec_c9_decode_encode_id_witness :
    wfE [([97], Val.map [([98], Val.str [99])]), ([100], Val.int 7)] = true ∧
      decode (encode [([97], Val.map [([98], Val.str [99])]), ([100], Val.int 7)])
        = .ok [([97], Val.map [([98], Val.str [99])]), ([100], Val.int 7)] :=
  ⟨rfl, spec_c9_decode_encode_id _ rfl⟩

/-- C3 counterexample: `[0x00, 0x00, 0x08, 0x08]` is a valid buffer (an
empty-keyed nested empty map); its truncation `[0x00, 0x00]` ends inside
the nested map, before the nested end-of-map sentinel has been consumed,
yet `decode` succeeds with a partial document instead of failing with
`UnexpectedEndOfInput`. -/
theorem spec_c3_nested_truncation_counterexample :
    decode [0, 0, 8, 8] = .ok [([], Val.map [])] ∧
      decode [0, 0] = .ok [([], Val.map [])] :=
  ⟨rfl, rfl⟩

/-- C3 amended: the decoder treats end-of-buffer like an end-of-map at
every nesting level.  A buffer that ends at an entry boundary inside a
nested map — after the nested map's key, with the nested entries encoded
but the `0x08` sentinel missing — decodes successfully to the partial
document, with the truncated nested map closed by exhaustion. -/
theorem spec_c3_amended_nested_truncation_tolerated (k : Bytes) (m : EntryList)
    (hk : ∀ b ∈ k, b ≠ 0) (hm : wfE m = true) :
    decode (0 :: (k ++ 0 :: encodeEntries m)) = .ok [(k, Val.map m)] := by
  have hk' : 0 ∉ k := fun h => hk 0 h rfl
  have hinner : decodeMapP [] (encodeEntries m) = .ok (m, []) := by
    have h1 := decodeMapP_encode_entries m [] [] hm
    rw [List.append_nil] at h1
    rw [h1, insertAll_nil_eq m hm, decodeMapP_nil]
  have h2 : decodeMapP [] (0 :: (k ++ 0 :: encodeEntries m))
      = .ok ([(k, Val.map m)], []) := by
    rw [decodeMapP_tag0 [] (decodeStr_append k _ hk') hinner, decodeMapP_nil]
    have : mapInsert [] k (Val.map m) = [(k, Val.map m)] := by simp [mapInsert]
    rw [this]
  simp [decode, h2]

/-- Witness for the amended C3 at a concrete truncated buffer: key `"a"`,
nested entries `{"b": int 1}` with no closing sentinel. -/
theorem spec_c3_amended_witness :
    (∀ b ∈ [97], b ≠ 0) ∧ wfE [([98], Val.int 1)] = true ∧
      decode [0, 97, 0, 2, 98, 0, 1, 0, 0, 0]
        = .ok [([97], Val.map [([98], Val.int 1)])] :=
  ⟨by decide, rfl, spec_c3_amended_nested_truncation_tolerated [97] [([98], Val.int 1)] (by decide) rfl⟩

/-- C4 (code bug): `[2, 0, 0, 0, 0, 0, 8]` is a valid buffer (`{"": int 0}`);
truncating it at index 3 — strictly inside the integer's 4 bytes — makes
`decode` panic (the Rust slice index `bytes[..4]` in `decode_int` is out of
range) instead of returning `UnexpectedEndOfInput` as specified. -/
theorem spec_c4_truncated_int_panics :
    decode [2, 0, 0, 0, 0, 0, 8] = .ok [([], Val.int 0)] ∧
      decode [2, 0, 0] = .panic :=
  ⟨rfl, rfl⟩

/-- C10 (code bug): `decode` can panic — on `[2, 0]` it reaches
`decode_int` with an empty remainder and the slice index panics — but the
claim's supporting reasoning about `decode_str` is correct: the scanned
run never contains a NUL, so the `CString` construction in `decode_str`
never panics, on any input. -/
theorem spec_c10_decode_panic_and_decode_str_safe :
    decode [2, 0] = .panic ∧ ∀ b : Bytes, decodeStr b ≠ .panic :=
  ⟨rfl, decodeStr_ne_panic⟩

theorem encodeEntries_length_cons (k : Bytes) (v : Val) (tl : EntryList) :
    (encodeEntries ((k, v) :: tl)).length
      = k.length + 2 + (encodeVal v).length + (encodeEntries tl).length := by
  show (tagOf v :: (k ++ [0]) ++ encodeVal v ++ encodeEntries tl).length = _
  simp
  omega

mutual

/-- Every payload tag position lies strictly inside the encoded payload. -/
theorem tagPositionsV_lt :
    ∀ (v : Val) (p : Nat), p ∈ tagPositionsV v → p < (encodeVal v).length
  | .map m, p, hp => by
    show p < (encodeEntries m ++ [8]).length
    rcases List.mem_append.mp hp with hin | hsent
    · have := tagPositions_lt m p hin
      simp
      omega
    · have : p = (encodeEntries m).length := by simpa using hsent
      simp
      omega
  | .str s, p, hp => absurd hp (by simp [tagPositionsV])
  | .int n, p, hp => absurd hp (by simp [tagPositionsV])

/-- Every tag position lies strictly inside the encoded entry list. -/
theorem tagPositions_lt :
    ∀ (es : EntryList) (p : Nat), p ∈ tagPositions es → p < (encodeEntries es).length
  | [], p, hp => absurd hp (by simp [tagPositions])
  | (k, v) :: tl, p, hp => by
    rw [encodeEntries_length_cons]
    rcases List.mem_cons.mp hp with h0 | hp1
    · have : 0 < (encodeVal v).length := by
        cases v <;> simp [encodeVal, Bvdf.toLE4]
      omega
    rcases List.mem_append.mp hp1 with hp2 | hp3
    · obtain ⟨q, hq, hpq⟩ := List.mem_map.mp hp2
      have := tagPositionsV_lt v q hq
      omega
    · obtain ⟨q, hq, hpq⟩ := List.mem_map.mp hp3
      have := tagPositions_lt tl q hq
      omega

end

/-- Setting an index that falls inside the left part of an append. -/
theorem set_prefix {α : Type} (a b : List α) (i : Nat) (x : α) (h : i < a.length) :
    (a ++ b).set i x = a.set i x ++ b := by
  rw [List.set_append, if_pos h]

/-- Setting an index that falls past the left part of an append. -/
theorem set_shift {α : Type} (a b : List α) (i j : Nat) (x : α) (h : i = a.length + j) :
    (a ++ b).set i x = a ++ b.set j x := by
  subst h
  rw [List.set_append, if_neg (by omega), Nat.add_sub_cancel_left]

theorem set_tag_head (k : Bytes) (v : Val) (tl : EntryList) (c : Nat) (suffix : Bytes)
    (acc : EntryList) (hc0 : c ≠ 0) (hc1 : c ≠ 1) (hc2 : c ≠ 2) (hc8 : c ≠ 8) :
    decodeMapP acc ((encodeEntries ((k, v) :: tl)).set 0 c ++ suffix)
      = .err .invalidMapItemPrefix := by
  have hsh : encodeEntries ((k, v) :: tl)
      = tagOf v :: ((k ++ [0]) ++ (encodeVal v ++ encodeEntries tl)) := by
    show tagOf v :: (k ++ [0]) ++ encodeVal v ++ encodeEntries tl = _
    simp
  rw [hsh,
      show (tagOf v :: ((k ++ [0]) ++ (encodeVal v ++ encodeEntries tl))).set 0 c
        = c :: ((k ++ [0]) ++ (encodeVal v ++ encodeEntries tl)) from rfl,
      List.cons_append]
  exact decodeMapP_bad acc c _ hc0 hc1 hc2 hc8

theorem set_tag_tail_shape (k : Bytes) (v : Val) (tl : EntryList) (q c : Nat)
    (suffix : Bytes) :
    (encodeEntries ((k, v) :: tl)).set (k.length + 2 + (encodeVal v).length + q) c ++ suffix
      = encodeEntries [(k, v)] ++ ((encodeEntries tl).set q c ++ suffix) := by
  have hsh : encodeEntries ((k, v) :: tl) = encodeEntries [(k, v)] ++ encodeEntries tl := by
    show tagOf v :: (k ++ [0]) ++ encodeVal v ++ encodeEntries tl
        = (tagOf v :: (k ++ [0]) ++ encodeVal v ++ encodeEntries []) ++ encodeEntries tl
    simp [encodeEntries]
  have hlen1 : (encodeEntries [(k, v)]).length = k.length + 2 + (encodeVal v).length := by
    rw [encodeEntries_length_cons]
    simp [encodeEntries]
  rw [hsh, set_shift _ _ _ q c (by rw [hlen1])]
  simp

/-- Replacing the tag byte at any tag position of an encoded entry list by
a byte outside `{0, 1, 2, 8}` makes decoding fail with
`InvalidMapItemPrefix`, whatever bytes follow. -/
theorem decodeMapP_set_tag :
    ∀ (es : EntryList) (acc : EntryList) (suffix : Bytes) (p c : Nat), wfE es = true →
      p ∈ tagPositions es → c ≠ 0 → c ≠ 1 → c ≠ 2 → c ≠ 8 →
      decodeMapP acc ((encodeEntries es).set p c ++ suffix) = .err .invalidMapItemPrefix
  | [], _, _, p, c, _, hp, _, _, _, _ => absurd hp (by simp [tagPositions])
  | (k, Val.str s) :: tl, acc, suffix, p, c, hwf, hp, hc0, hc1, hc2, hc8 => by
    obtain ⟨hkb, hvb, hndb, htlb⟩ :
        (k.all (fun b => b != 0) = true) ∧ wfV (Val.str s) = true
          ∧ (tl.all (fun e => e.1 != k) = true) ∧ wfE tl = true := by
      simp only [wfE, Bool.and_eq_true] at hwf
      exact ⟨hwf.1.1.1, hwf.1.1.2, hwf.1.2, hwf.2⟩
    rcases List.mem_cons.mp hp with h0 | hp1
    · subst h0
      exact set_tag_head k _ tl c suffix acc hc0 hc1 hc2 hc8
    rcases List.mem_append.mp hp1 with hp2 | hp3
    · obtain ⟨q, hq, _⟩ := List.mem_map.mp hp2
      exact absurd hq (by simp [tagPositionsV])
    · obtain ⟨q, hq, hpq⟩ := List.mem_map.mp hp3
      rw [← hpq, set_tag_tail_shape,
          decodeMapP_encode_entries [(k, Val.str s)] acc _ (by simp [wfE, hkb, hvb])]
      exact decodeMapP_set_tag tl _ suffix q c htlb hq hc0 hc1 hc2 hc8
  | (k, Val.int n) :: tl, acc, suffix, p, c, hwf, hp, hc0, hc1, hc2, hc8 => by
    obtain ⟨hkb, hvb, hndb, htlb⟩ :
        (k.all (fun b => b != 0) = true) ∧ wfV (Val.int n) = true
          ∧ (tl.all (fun e => e.1 != k) = true) ∧ wfE tl = true := by
      simp only [wfE, Bool.and_eq_true] at hwf
      exact ⟨hwf.1.1.1, hwf.1.1.2, hwf.1.2, hwf.2⟩
    rcases List.mem_cons.mp hp with h0 | hp1
    · subst h0
      exact set_tag_head k _ tl c suffix acc hc0 hc1 hc2 hc8
    rcases List.mem_append.mp hp1 with hp2 | hp3
    · obtain ⟨q, hq, _⟩ := List.mem_map.mp hp2
      exact absurd hq (by simp [tagPositionsV])
    · obtain ⟨q, hq, hpq⟩ := List.mem_map.mp hp3
      rw [← hpq, set_tag_tail_shape,
          decodeMapP_encode_entries [(k, Val.int n)] acc _ (by simp [wfE, hkb, hvb])]
      exact decodeMapP_set_tag tl _ suffix q c htlb hq hc0 hc1 hc2 hc8
  | (k, Val.map m) :: tl, acc, suffix, p, c, hwf, hp, hc0, hc1, hc2, hc8 => by
    obtain ⟨hkb, hvb, hndb, htlb⟩ :
        (k.all (fun b => b != 0) = true) ∧ wfV (Val.map m) = true
          ∧ (tl.all (fun e => e.1 != k) = true) ∧ wfE tl = true := by
      simp only [wfE, Bool.and_eq_true] at hwf
      exact ⟨hwf.1.1.1, hwf.1.1.2, hwf.1.2, hwf.2⟩
    have hk' : 0 ∉ k := by
      simp only [List.all_eq_true, bne_iff_ne] at hkb
      exact fun hm => hkb 0 hm rfl
    have hm' : wfE m = true := by simpa [wfV] using hvb
    have hsh : encodeEntries ((k, Val.map m) :: tl)
        = (0 :: (k ++ [0])) ++ (encodeEntries m ++ ([8] ++ encodeEntries tl)) := by
      show 0 :: (k ++ [0]) ++ (encodeEntries m ++ [8]) ++ encodeEntries tl = _
      simp
    rcases List.mem_cons.mp hp with h0 | hp1
    · subst h0
      exact set_tag_head k _ tl c suffix acc hc0 hc1 hc2 hc8
    rcases List.mem_append.mp hp1 with hp2 | hp3
    · obtain ⟨q, hq, hpq⟩ := List.mem_map.mp hp2
      rcases List.mem_append.mp hq with hin | hsent
      · have hql := tagPositions_lt m q hin
        have hset : (encodeEntries ((k, Val.map m) :: tl)).set p c ++ suffix
            = 0 :: (k ++ 0 :: ((encodeEntries m).set q c
              ++ (8 :: (encodeEntries tl ++ suffix)))) := by
          rw [hsh, set_shift _ _ p q c (by simp; omega), set_prefix _ _ q c hql]
          simp
        rw [hset]
        exact decodeMapP_tag0_err acc (decodeStr_append k _ hk')
          (decodeMapP_set_tag m [] (8 :: (encodeEntries tl ++ suffix)) q c hm' hin
            hc0 hc1 hc2 hc8)
      · have hq' : q = (encodeEntries m).length := by simpa using hsent
        subst hq'
        have hset : (encodeEntries ((k, Val.map m) :: tl)).set p c ++ suffix
            = 0 :: (k ++ 0 :: (encodeEntries m ++ (c :: (encodeEntries tl ++ suffix)))) := by
          rw [hsh, set_shift _ _ p ((encodeEntries m).length) c (by simp; omega),
              set_shift (encodeEntries m) _ _ 0 c (by omega)]
          simp
        rw [hset]
        have hbad : decodeMapP [] (encodeEntries m ++ (c :: (encodeEntries tl ++ suffix)))
            = .err .invalidMapItemPrefix := by
          rw [decodeMapP_encode_entries m [] _ hm']
          exact decodeMapP_bad _ c _ hc0 hc1 hc2 hc8
        exact decodeMapP_tag0_err acc (decodeStr_append k _ hk') hbad
    · obtain ⟨q, hq, hpq⟩ := List.mem_map.mp hp3
      rw [← hpq, set_tag_tail_shape,
          decodeMapP_encode_entries [(k, Val.map m)] acc _ (by simp [wfE, hkb, hvb])]
      exact decodeMapP_set_tag tl _ suffix q c htlb hq hc0 hc1 hc2 hc8
termination_by es _ _ _ _ _ _ _ _ _ _ => sizeOf es
decreasing_by all_goals (simp; try omega)

/-- C5: replacing any tag byte of a canonical buffer — an entry's tag or
an end-of-map sentinel, at any nesting depth, including the root's final
sentinel — by a byte outside `{0x00, 0x01, 0x02, 0x08}` makes `decode`
fail with `InvalidMapItemPrefix`. -/
theorem spec_c5_invalid_tag_rejection (es : EntryList) (p c : Nat)
    (hwf : wfE es = true)
    (hp : p ∈ tagPositions es ++ [(encodeEntries es).length])
    (hc0 : c ≠ 0) (hc1 : c ≠ 1) (hc2 : c ≠ 2) (hc8 : c ≠ 8) :
    decode ((encode es).set p c) = .err .invalidMapItemPrefix := by
  rcases List.mem_append.mp hp with hin | hlast
  · have hlt := tagPositions_lt es p hin
    have hset : (encode es).set p c = (encodeEntries es).set p c ++ [8] := by
      rw [encode, set_prefix _ _ p c hlt]
    rw [hset]
    have h := decodeMapP_set_tag es [] [8] p c hwf hin hc0 hc1 hc2 hc8
    rw [show (encodeEntries es).set p c ++ [8] = (encodeEntries es).set p c ++ ([8] : Bytes)
        from rfl]
    simp [decode, h]
  · have hp' : p = (encodeEntries es).length := by simpa using hlast
    subst hp'
    have hset : (encode es).set (encodeEntries es).length c = encodeEntries es ++ [c] := by
      rw [encode, set_shift _ _ _ 0 c (by omega)]
      rfl
    rw [hset]
    have hbad : decodeMapP [] (encodeEntries es ++ [c]) = .err .invalidMapItemPrefix := by
      rw [show ([c] : Bytes) = c :: [] from rfl, decodeMapP_encode_entries es [] _ hwf]
      exact decodeMapP_bad _ c _ hc0 hc1 hc2 hc8
    simp [decode, hbad]

/-- Witness for C5: in the canonical buffer for `{"a": {"b": int 5}}`,
position 3 is the nested map's entry tag; setting it to 9 is rejected. -/
theorem spec_c5_invalid_tag_rejection_witness :
    wfE [([97], Val.map [([98], Val.int 5)])] = true
    ∧ (3 ∈ tagPositions [([97], Val.map [([98], Val.int 5)])]
        ++ [(encodeEntries [([97], Val.map [([98], Val.int 5)])]).length])
    ∧ (9 : Nat) ≠ 0 ∧ (9 : Nat) ≠ 1 ∧ (9 : Nat) ≠ 2 ∧ (9 : Nat) ≠ 8
    ∧ decode ((encode [([97], Val.map [([98], Val.int 5)])]).set 3 9)
        = .err .invalidMapItemPrefix :=
  ⟨rfl, by decide, by decide, by decide, by decide, by decide,
   spec_c5_invalid_tag_rejection [([97], Val.map [([98], Val.int 5)])] 3 9 rfl
     (by decide) (by decide) (by decide) (by decide) (by decide)⟩

end Bvdf

namespace Shortcuts

open Bvdf (Bytes toLE4 leVal)

theorem tryMatch_length : ∀ (ns bs : Bytes), (tryMatch ns bs).2.length ≤ bs.length
  | [], bs => le_refl _
  | _ :: _, [] => by simp [tryMatch]
  | n :: ns, b :: bs => by
    simp only [tryMatch]
    by_cases h : eqIC n b = true
    · rw [if_pos h]
      have := tryMatch_length ns bs
      simp
      omega
    · rw [if_neg h]

theorem tryMatch_of_eqICL :
    ∀ (ns ps rest : Bytes), eqICL ns ps = true → tryMatch ns (ps ++ rest) = (true, rest) := by
  intro ns
  induction ns with
  | nil =>
    intro ps rest h
    cases ps with
    | nil => rfl
    | cons p ps => simp [eqICL] at h
  | cons n ns ih =>
    intro ps rest h
    cases ps with
    | nil => simp [eqICL] at h
    | cons p ps =>
      simp only [eqICL, Bool.and_eq_true] at h
      simp only [List.cons_append, tryMatch, if_pos h.1]
      exact ih ps rest h.2

theorem eqICL_append :
    ∀ (a b c d : Bytes), eqICL a b = true → eqICL c d = true →
      eqICL (a ++ c) (b ++ d) = true := by
  intro a
  induction a with
  | nil =>
    intro b c d hab hcd
    cases b with
    | nil => simpa using hcd
    | cons x xs => simp [eqICL] at hab
  | cons x xs ih =>
    intro b c d hab hcd
    cases b with
    | nil => simp [eqICL] at hab
    | cons y ys =>
      simp only [eqICL, Bool.and_eq_true] at hab
      simp only [List.cons_append, eqICL, Bool.and_eq_true]
      exact ⟨hab.1, ih ys c d hab.2 hcd⟩

theorem afterManyF_length :
    ∀ (f : Nat) (bytes needle rest : Bytes),
      afterManyF f bytes needle = some rest → rest.length < bytes.length := by
  intro f
  induction f with
  | zero => intro bytes needle rest h; simp [afterManyF] at h
  | succ f ih =>
    intro bytes needle rest h
    cases bytes with
    | nil => simp [afterManyF] at h
    | cons b bs =>
      cases needle with
      | nil =>
        simp only [afterManyF] at h
        have := ih bs [] rest h
        simp
        omega
      | cons n ns =>
        simp only [afterManyF] at h
        by_cases he : eqIC n b = true
        · rw [if_pos he] at h
          cases htm : tryMatch ns bs with
          | mk flag rem =>
            rw [htm] at h
            cases flag with
            | true =>
              simp at h
              have := tryMatch_length ns bs
              rw [htm] at this
              simp at this
              simp [← h]
              omega
            | false =>
              simp at h
              have h1 := ih rem (n :: ns) rest h
              have h2 := tryMatch_length ns bs
              rw [htm] at h2
              simp at h2
              simp
              omega
        · rw [if_neg he] at h
          have := ih bs (n :: ns) rest h
          simp
          omega

theorem afterManyF_congr : ∀ (f : Nat) (bytes needle : Bytes), bytes.length ≤ f →
    afterManyF f bytes needle = afterManyF bytes.length bytes needle
  | f, [], needle, _ => by cases f <;> simp [afterManyF]
  | 0, b :: bs, needle, h => absurd h (by simp)
  | f + 1, b :: bs, needle, h => by
    have hf : bs.length ≤ f := by simp at h; omega
    simp only [afterManyF, List.length_cons]
    cases needle with
    | nil =>
      dsimp only
      rw [afterManyF_congr f bs [] hf, afterManyF_congr bs.length bs [] (le_refl _)]
    | cons n ns =>
      dsimp only
      by_cases he : eqIC n b = true
      · rw [if_pos he, if_pos he]
        cases htm : tryMatch ns bs with
        | mk flag rem =>
          cases flag with
          | true => rfl
          | false =>
            have hrem : rem.length ≤ bs.length := by
              have := tryMatch_length ns bs
              rw [htm] at this
              simpa using this
            dsimp only
            rw [afterManyF_congr f rem (n :: ns) (by omega),
                afterManyF_congr bs.length rem (n :: ns) (by omega)]
      · rw [if_neg he, if_neg he,
            afterManyF_congr f bs (n :: ns) hf,
            afterManyF_congr bs.length bs (n :: ns) (le_refl _)]
termination_by f bytes needle h => bytes.length
decreasing_by all_goals (simp; try omega)

theorem afterMany_some_length {bytes needle rest : Bytes}
    (h : afterMany bytes needle = some rest) : rest.length < bytes.length :=
  afterManyF_length bytes.length bytes needle rest h

/-- Scanning a buffer that begins with a (nonempty) case-equivalent copy of
the needle succeeds immediately, leaving exactly the bytes after it. -/
theorem afterMany_immediate {n p : Nat} {ns ps : Bytes} (rest : Bytes)
    (h : eqICL (n :: ns) (p :: ps) = true) :
    afterMany ((p :: ps) ++ rest) (n :: ns) = some rest := by
  simp only [eqICL, Bool.and_eq_true] at h
  have h2 := tryMatch_of_eqICL ns ps rest h.2
  simp [afterMany, afterManyF, h.1, h2]

theorem parseValueStr_append :
    ∀ (s r : Bytes), 0 ∉ s → parseValueStr (s ++ 0 :: r) = some (s, r) := by
  intro s
  induction s with
  | nil => intro r _; simp [parseValueStr]
  | cons b tl ih =>
    intro r hmem
    have hb : b ≠ 0 := fun h => hmem (by simp [h])
    have htl : 0 ∉ tl := fun h => hmem (List.mem_cons_of_mem _ h)
    simp [List.cons_append, parseValueStr, if_neg hb, ih r htl]

theorem parseValueStr_length :
    ∀ (bytes s r : Bytes), parseValueStr bytes = some (s, r) → r.length < bytes.length := by
  intro bytes
  induction bytes with
  | nil => intro s r h; simp [parseValueStr] at h
  | cons b bs ih =>
    intro s r h
    by_cases hb : b = 0
    · subst hb
      simp [parseValueStr] at h
      simp [← h.2]
    · simp only [parseValueStr, if_neg hb] at h
      cases hgo : parseValueStr bs with
      | none => rw [hgo] at h; simp at h
      | some sr =>
        obtain ⟨s0, r0⟩ := sr
        rw [hgo] at h
        simp at h
        have := ih s0 r0 hgo
        simp [← h.2]
        omega

theorem parseValueU32_toLE4 (n : Nat) (r : Bytes) (h : n < 4294967296) :
    parseValueU32 (toLE4 n ++ r) = some (n, r) := by
  simp [Bvdf.toLE4, parseValueU32, Bvdf.leVal]
  omega

theorem parseValueU32_length :
    ∀ (bytes r : Bytes) (n : Nat), parseValueU32 bytes = some (n, r) → r.length < bytes.length := by
  intro bytes r n h
  match bytes with
  | [] => simp [parseValueU32] at h
  | [b0] => simp [parseValueU32] at h
  | [b0, b1] => simp [parseValueU32] at h
  | [b0, b1, b2] => simp [parseValueU32] at h
  | b0 :: b1 :: b2 :: b3 :: rest =>
    simp [parseValueU32] at h
    simp [← h.2]
    omega

theorem parseShortcutsF_congr : ∀ (f : Nat) (bytes : Bytes) (acc : List Shortcut),
    bytes.length < f → parseShortcutsF f bytes acc = parseShortcutsF (bytes.length + 1) bytes acc
  | 0, bytes, acc, h => absurd h (by omega)
  | f + 1, bytes, acc, h => by
    simp only [parseShortcutsF]
    cases ha : afterMany bytes needleAppid with
    | none => rfl
    | some r1 =>
      have l1 : r1.length < bytes.length := afterMany_some_length ha
      dsimp only
      cases hu : parseValueU32 r1 with
      | none => rfl
      | some nr =>
        have l2 : nr.2.length < r1.length := parseValueU32_length r1 nr.2 nr.1 (by rw [hu])
        dsimp only
        cases hb : afterMany nr.2 needleAppName with
        | none => rfl
        | some r3 =>
          have l3 : r3.length < nr.2.length := afterMany_some_length hb
          dsimp only
          cases hn : parseValueStr r3 with
          | none => rfl
          | some an =>
            have l4 : an.2.length < r3.length := parseValueStr_length r3 an.1 an.2 (by rw [hn])
            dsimp only
            cases hc : afterMany an.2 needleExe with
            | none => rfl
            | some r5 =>
              have l5 : r5.length < an.2.length := afterMany_some_length hc
              dsimp only
              cases he : parseValueStr r5 with
              | none => rfl
              | some ex =>
                have l6 : ex.2.length < r5.length := parseValueStr_length r5 ex.1 ex.2 (by rw [he])
                dsimp only
                cases hd : afterMany ex.2 needleStartDir with
                | none => rfl
                | some r7 =>
                  have l7 : r7.length < ex.2.length := afterMany_some_length hd
                  dsimp only
                  cases hf2 : parseValueStr r7 with
                  | none => rfl
                  | some sd =>
                    have l8 : sd.2.length < r7.length := parseValueStr_length r7 sd.1 sd.2 (by rw [hf2])
                    dsimp only
                    rw [parseShortcutsF_congr f sd.2 _ (by omega),
                        parseShortcutsF_congr bytes.length sd.2 _ (by omega)]
termination_by f bytes acc h => bytes.length
decreasing_by all_goals omega

/-- One unfolding step of the `parse_shortcuts` loop. -/
theorem parseShortcutsF_step (f : Nat) (bytes : Bytes) (acc : List Shortcut) :
    parseShortcutsF (f + 1) bytes acc =
      match afterMany bytes needleAppid with
      | none => some acc
      | some r1 =>
        match parseValueU32 r1 with
        | none => none
        | some nr =>
          match afterMany nr.2 needleAppName with
          | none => none
          | some r3 =>
            match parseValueStr r3 with
            | none => none
            | some an =>
              match afterMany an.2 needleExe with
              | none => none
              | some r5 =>
                match parseValueStr r5 with
                | none => none
                | some ex =>
                  match afterMany ex.2 needleStartDir with
                  | none => none
                  | some r7 =>
                    match parseValueStr r7 with
                    | none => none
                    | some sd =>
                      parseShortcutsF f sd.2 (acc ++ [⟨nr.1, an.1, ex.1, sd.1⟩]) := rfl

theorem eqIC_refl (t : Nat) : eqIC t t = true := by simp [eqIC]

theorem eqICL_needle {t : Nat} {canon K : Bytes} (h : eqICL canon K = true) :
    eqICL (t :: (canon ++ [0])) (t :: (K ++ [0])) = true := by
  simp only [eqICL, Bool.and_eq_true]
  exact ⟨eqIC_refl t, eqICL_append canon K [0] [0] h rfl⟩

/-- Parsing a record-shaped buffer: the scanner consumes each record in
turn (whatever the key spellings, as long as they are case-equivalent to
the canonical ones) and ends working on the tail with all records
accumulated. -/
theorem parseShortcutsF_mkBuffer :
    ∀ (ss acc : List Shortcut) (tail K1 K2 K3 K4 : Bytes),
      spellingsOK K1 K2 K3 K4 = true → (∀ s ∈ ss, shortcutOK s = true) →
      parseShortcutsF ((mkBuffer K1 K2 K3 K4 ss ++ tail).length + 1)
          (mkBuffer K1 K2 K3 K4 ss ++ tail) acc
        = parseShortcutsF (tail.length + 1) tail (acc ++ ss) := by
  intro ss
  induction ss with
  | nil => intro acc tail K1 K2 K3 K4 _ _; simp [mkBuffer]
  | cons s tl ih =>
    intro acc tail K1 K2 K3 K4 hsp hok
    obtain ⟨⟨hk1, hk2⟩, hk3, hk4⟩ : (eqICL keyAppid K1 = true ∧ eqICL keyAppName K2 = true)
        ∧ eqICL keyExe K3 = true ∧ eqICL keyStartDir K4 = true := by
      simp only [spellingsOK, Bool.and_eq_true] at hsp
      exact ⟨⟨hsp.1.1.1, hsp.1.1.2⟩, hsp.1.2, hsp.2⟩
    have hs := hok s (by simp)
    obtain ⟨hsid, hsname, hsexe, hsdir⟩ :
        s.appid < 4294967296 ∧ (0 ∉ s.appName) ∧ (0 ∉ s.executable) ∧ (0 ∉ s.startDir) := by
      simp only [shortcutOK, Bool.and_eq_true, List.all_eq_true, bne_iff_ne,
        decide_eq_true_eq] at hs
      exact ⟨hs.1.1.1, fun hm => hs.1.1.2 0 hm rfl, fun hm => hs.1.2 0 hm rfl,
        fun hm => hs.2 0 hm rfl⟩
    have hbuf : mkBuffer K1 K2 K3 K4 (s :: tl) ++ tail
        = (2 :: (K1 ++ [0])) ++ (toLE4 s.appid
          ++ ((1 :: (K2 ++ [0])) ++ (s.appName ++ 0
          :: ((1 :: (K3 ++ [0])) ++ (s.executable ++ 0
          :: ((1 :: (K4 ++ [0])) ++ (s.startDir ++ 0
          :: (mkBuffer K1 K2 K3 K4 tl ++ tail)))))))) := by
      simp [mkBuffer, mkRecord]
    have ham1 : ∀ rest : Bytes,
        afterMany ((2 :: (K1 ++ [0])) ++ rest) needleAppid = some rest :=
      fun rest => afterMany_immediate rest (eqICL_needle hk1)
    have ham2 : ∀ rest : Bytes,
        afterMany ((1 :: (K2 ++ [0])) ++ rest) needleAppName = some rest :=
      fun rest => afterMany_immediate rest (eqICL_needle hk2)
    have ham3 : ∀ rest : Bytes,
        afterMany ((1 :: (K3 ++ [0])) ++ rest) needleExe = some rest :=
      fun rest => afterMany_immediate rest (eqICL_needle hk3)
    have ham4 : ∀ rest : Bytes,
        afterMany ((1 :: (K4 ++ [0])) ++ rest) needleStartDir = some rest :=
      fun rest => afterMany_immediate rest (eqICL_needle hk4)
    rw [hbuf]
    have hfuel : ((2 :: (K1 ++ [0])) ++ (toLE4 s.appid
          ++ ((1 :: (K2 ++ [0])) ++ (s.appName ++ 0
          :: ((1 :: (K3 ++ [0])) ++ (s.executable ++ 0
          :: ((1 :: (K4 ++ [0])) ++ (s.startDir ++ 0
          :: (mkBuffer K1 K2 K3 K4 tl ++ tail))))))))).length
        = (mkBuffer K1 K2 K3 K4 tl ++ tail).length
          + (K1.length + K2.length + K3.length + K4.length
            + s.appName.length + s.executable.length + s.startDir.length + 15) := by
      simp [Bvdf.toLE4]
      omega
    rw [parseShortcutsF_step]
    rw [ham1]
    dsimp only
    rw [parseValueU32_toLE4 s.appid _ hsid]
    dsimp only
    rw [ham2]
    dsimp only
    rw [parseValueStr_append s.appName _ hsname]
    dsimp only
    rw [ham3]
    dsimp only
    rw [parseValueStr_append s.executable _ hsexe]
    dsimp only
    rw [ham4]
    dsimp only
    rw [parseValueStr_append s.startDir _ hsdir]
    dsimp only
    have heta : (⟨s.appid, s.appName, s.executable, s.startDir⟩ : Shortcut) = s := rfl
    rw [heta]
    rw [parseShortcutsF_congr _ (mkBuffer K1 K2 K3 K4 tl ++ tail) (acc ++ [s])
        (by rw [hfuel]; omega)]
    rw [ih (acc ++ [s]) tail K1 K2 K3 K4 hsp (fun x hx => hok x (by simp [hx]))]
    simp

/-- Parsing a buffer of records (with no trailing bytes) yields exactly
those records. -/
theorem parseShortcuts_mkBuffer (ss : List Shortcut) (K1 K2 K3 K4 : Bytes)
    (hsp : spellingsOK K1 K2 K3 K4 = true) (hok : ∀ s ∈ ss, shortcutOK s = true) :
    parseShortcuts (mkBuffer K1 K2 K3 K4 ss) = some ss := by
  have h := parseShortcutsF_mkBuffer ss [] [] K1 K2 K3 K4 hsp hok
  rw [List.append_nil] at h
  simpa [parseShortcuts] using h

/-- C2 counterexample: a buffer holding one complete record followed by a
dangling `appid` field (marker and 4-byte value, but no following
`AppName`): alone, the record extracts fine, but with the dangling field
appended `parse_shortcuts` returns `none` — discarding the complete record
already collected instead of returning it. -/
theorem spec_c2_partial_record_counterexample :
    parseShortcuts [2, 97, 112, 112, 105, 100, 0, 5, 0, 0, 0,
        1, 65, 112, 112, 78, 97, 109, 101, 0, 65, 0,
        1, 69, 120, 101, 0, 66, 0,
        1, 83, 116, 97, 114, 116, 68, 105, 114, 0, 67, 0]
      = some [⟨5, [65], [66], [67]⟩]
    ∧ parseShortcuts ([2, 97, 112, 112, 105, 100, 0, 5, 0, 0, 0,
        1, 65, 112, 112, 78, 97, 109, 101, 0, 65, 0,
        1, 69, 120, 101, 0, 66, 0,
        1, 83, 116, 97, 114, 116, 68, 105, 114, 0, 67, 0]
        ++ [2, 97, 112, 112, 105, 100, 0, 9, 9, 9, 9])
      = none :=
  ⟨rfl, rfl⟩

/-- C2 amended: when the `appid` marker is not found, `parse_shortcuts`
returns the records collected so far; but when an appid value has been
read and a following marker is missing, it aborts with `none`, discarding
all previously collected records (its caller then contributes no records
from the buffer), not just the partial one. -/
theorem spec_c2_missing_marker_discards_all (ss : List Shortcut)
    (hss : ∀ s ∈ ss, shortcutOK s = true) :
    parseShortcuts (mkBuffer keyAppid keyAppName keyExe keyStartDir ss) = some ss
    ∧ parseShortcuts (mkBuffer keyAppid keyAppName keyExe keyStartDir ss
        ++ ((2 :: (keyAppid ++ [0])) ++ [9, 9, 9, 9])) = none := by
  have hsp : spellingsOK keyAppid keyAppName keyExe keyStartDir = true := by decide
  refine ⟨parseShortcuts_mkBuffer ss _ _ _ _ hsp hss, ?_⟩
  have h := parseShortcutsF_mkBuffer ss [] ((2 :: (keyAppid ++ [0])) ++ [9, 9, 9, 9])
    keyAppid keyAppName keyExe keyStartDir hsp hss
  simp only [parseShortcuts]
  rw [h]
  exact rfl

/-- Witness for the amended C2 at one concrete record. -/
theorem spec_c2_missing_marker_discards_all_witness :
    (∀ s ∈ ([⟨5, [65], [66], [67]⟩] : List Shortcut), shortcutOK s = true)
    ∧ (parseShortcuts (mkBuffer keyAppid keyAppName keyExe keyStartDir
          [⟨5, [65], [66], [67]⟩]) = some [⟨5, [65], [66], [67]⟩]
      ∧ parseShortcuts (mkBuffer keyAppid keyAppName keyExe keyStartDir
          [⟨5, [65], [66], [67]⟩] ++ ((2 :: (keyAppid ++ [0])) ++ [9, 9, 9, 9])) = none) :=
  ⟨by decide, spec_c2_missing_marker_discards_all _ (by decide)⟩

/-- C6: buffers that differ only in the ASCII letter case of the four key
names extract to the same records (and those records are exactly the ones
laid out); and the leading tag byte of a needle (`0x02` or `0x01`), being
a non-letter, is matched by `eq_ignore_ascii_case` exactly as an exact
byte. -/
theorem spec_c6_case_insensitive_keys
    (A1 A2 A3 A4 B1 B2 B3 B4 : Bytes) (ss : List Shortcut)
    (hA : spellingsOK A1 A2 A3 A4 = true) (hB : spellingsOK B1 B2 B3 B4 = true)
    (hss : ∀ s ∈ ss, shortcutOK s = true) :
    parseShortcuts (mkBuffer A1 A2 A3 A4 ss) = parseShortcuts (mkBuffer B1 B2 B3 B4 ss)
    ∧ parseShortcuts (mkBuffer A1 A2 A3 A4 ss) = some ss
    ∧ ∀ b : Nat, (eqIC 2 b = true ↔ b = 2) ∧ (eqIC 1 b = true ↔ b = 1) := by
  have h1 := parseShortcuts_mkBuffer ss A1 A2 A3 A4 hA hss
  have h2 := parseShortcuts_mkBuffer ss B1 B2 B3 B4 hB hss
  have htag : ∀ t b : Nat, t < 65 → (eqIC t b = true ↔ b = t) := by
    intro t b ht
    simp only [eqIC, lowerA, beq_iff_eq]
    have htf : ¬(65 ≤ t ∧ t ≤ 90) := by omega
    rw [if_neg htf]
    by_cases h : 65 ≤ b ∧ b ≤ 90
    · rw [if_pos h]
      constructor <;> (intro he; omega)
    · rw [if_neg h]
      exact eq_comm
  exact ⟨h1.trans h2.symm, h1, fun b => ⟨htag 2 b (by omega), htag 1 b (by omega)⟩⟩

/-- Witness for C6: all-uppercase key spellings against the canonical ones,
on one concrete record. -/
theorem spec_c6_case_insensitive_keys_witness :
    spellingsOK [65, 80, 80, 73, 68] [65, 80, 80, 78, 65, 77, 69] [69, 88, 69]
        [83, 84, 65, 82, 84, 68, 73, 82] = true
    ∧ spellingsOK keyAppid keyAppName keyExe keyStartDir = true
    ∧ (∀ s ∈ ([⟨2931025216, [83, 76], [86], [47]⟩] : List Shortcut), shortcutOK s = true)
    ∧ (parseShortcuts (mkBuffer [65, 80, 80, 73, 68] [65, 80, 80, 78, 65, 77, 69]
          [69, 88, 69] [83, 84, 65, 82, 84, 68, 73, 82] [⟨2931025216, [83, 76], [86], [47]⟩])
        = parseShortcuts (mkBuffer keyAppid keyAppName keyExe keyStartDir
          [⟨2931025216, [83, 76], [86], [47]⟩])
      ∧ parseShortcuts (mkBuffer [65, 80, 80, 73, 68] [65, 80, 80, 78, 65, 77, 69]
          [69, 88, 69] [83, 84, 65, 82, 84, 68, 73, 82] [⟨2931025216, [83, 76], [86], [47]⟩])
        = some [⟨2931025216, [83, 76], [86], [47]⟩]
      ∧ ∀ b : Nat, (eqIC 2 b = true ↔ b = 2) ∧ (eqIC 1 b = true ↔ b = 1)) :=
  ⟨by decide, by decide, by decide,
   spec_c6_case_insensitive_keys _ _ _ _ _ _ _ _ _ (by decide) (by decide) (by decide)⟩

set_option maxRecDepth 40000 in
/-- The standard CRC-32/ISO-HDLC check value: the checksum of the ASCII
bytes of `"123456789"` is `0xCBF43926`. -/
theorem crc32_check_value :
    crc32 [49, 50, 51, 52, 53, 54, 55, 56, 57] = 0xCBF43926 := by decide

/-- Or-ing a value shifted past `k` bits with a value below `2^k` is plain
addition: the two summands occupy disjoint bits. -/
theorem lor_two_pow_mul_add (k : Nat) : ∀ m r : Nat, r < 2 ^ k → (2 ^ k * m) ||| r = 2 ^ k * m + r := by
  induction k with
  | zero =>
    intro m r h
    interval_cases r
    simp
  | succ k ih =>
    intro m r h
    have h1 : 2 ^ (k + 1) * m = Nat.bit false (2 ^ k * m) := by
      rw [Nat.bit_val]
      simp [Nat.pow_succ]
      ring
    have hd : r.div2 < 2 ^ k := by
      rw [Nat.div2_val]
      have hp : (2 : Nat) ^ (k + 1) = 2 * 2 ^ k := by ring
      omega
    have hb := Nat.bit_decomp r
    rw [Nat.bit_val] at hb
    have hp : (2 : Nat) ^ (k + 1) = 2 * 2 ^ k := by ring
    rw [h1]
    nth_rewrite 1 [(Nat.bit_decomp r).symm]
    rw [Nat.lor_bit, Bool.false_or, ih _ _ hd, Nat.bit_val, Nat.bit_val]
    simp only [Bool.toNat_false]
    omega

/-- C7: `derive_app_id` equals the CRC-32/ISO-HDLC checksum of the
executable's bytes followed by the name's bytes — the two running updates
amount to one checksum over the concatenation — or-ed with `0x80000000`;
its high bit is therefore always set. -/
theorem spec_c7_derive_app_id (executable appName : Bytes) :
    deriveAppId executable appName = crc32 (executable ++ appName) ||| 0x80000000
    ∧ (deriveAppId executable appName).testBit 31 = true := by
  have hconcat : deriveAppId executable appName
      = crc32 (executable ++ appName) ||| 0x80000000 := by
    simp [deriveAppId, crc32, crcUpdate, List.foldl_append]
  refine ⟨hconcat, ?_⟩
  rw [hconcat]
  have h31 : (0x80000000 : Nat) = 2 ^ 31 := by norm_num
  rw [h31, Nat.testBit_lor, Nat.testBit_two_pow_self, Bool.or_true]

/-- C8: `steam_id` places the 32-bit app id in the high word and
`0x02000000` in the low word of a 64-bit value; in particular
`steam_long_id 0x12345678 = 0x1234567802000000`. -/
theorem spec_c8_steam_long_id (appid : Nat) (h : appid < 4294967296) :
    steamLongId appid = appid * 4294967296 + 0x02000000
    ∧ steamLongId appid < 18446744073709551616
    ∧ steamLongId 0x12345678 = 0x1234567802000000 := by
  have hgen : ∀ a : Nat, steamLongId a = a * 4294967296 + 0x02000000 := by
    intro a
    rw [steamLongId, Nat.shiftLeft_eq,
        show a * 2 ^ 32 = 2 ^ 32 * a from by ring,
        lor_two_pow_mul_add 32 a 0x02000000 (by norm_num),
        show (2 : Nat) ^ 32 * a = a * 4294967296 from by ring]
  refine ⟨hgen appid, ?_, ?_⟩
  · rw [hgen appid]
    omega
  · rw [hgen 0x12345678]

/-- Witness for C8 at `appid = 0x12345678`. -/
theorem spec_c8_steam_long_id_witness :
    (0x12345678 : Nat) < 4294967296
    ∧ (steamLongId 0x12345678 = 0x12345678 * 4294967296 + 0x02000000
      ∧ steamLongId 0x12345678 < 18446744073709551616
      ∧ steamLongId 0x12345678 = 0x1234567802000000) :=
  ⟨by norm_num, spec_c8_steam_long_id 0x12345678 (by norm_num)⟩

end Shortcuts
